import Mathlib

/-!
Shallow embedding of the reconciliation engine of `pybibtexer`
(files `pybibtexer/main/utils.py`, `pybibtexer/main/basic_input.py`,
`pybibtexer/scripts/run_generate_jsons.py`), together with theorems
settling the specification claims about it.

Modelling conventions:
* Python `dict`s (insertion ordered) are modelled as association lists
  `List (String × α)` with Python update semantics (`alistInsert`
  replaces the value in place for an existing key, appends new keys).
* `str.lower()` is modelled ASCII-wise by `Char.toLower` (all names in
  the claims are ASCII).
* The source compiles `re.compile(f"^item$")` from data-derived `item`
  and uses it as an anchored whole-string test; as recorded in the
  design notes of the specification ("regex-as-equality"), this is a
  literal equality test after normalization since venue names carry no
  regex metacharacters - the embedding uses string equality there.
* Console output (`print`) carries no data flow and is dropped.
-/

/-- One acronym record: the paired lists stored under `"names_abbr"` and
`"names_full"` in the JSON objects.  A key absent from the underlying
Python dict is observed by the code only through `.get(key, [])`, so it
is identified with the empty list. -/
structure NameRecord where
  names_abbr : List String
  names_full : List String
deriving DecidableEq, Repr

/-- An acronym table: Python `dict[str, dict]` as an insertion-ordered
association list. -/
abbrev ATable := List (String × NameRecord)

/-- First-occurrence lookup in an association list (Python `d[k]` /
`d.get(k)`; dicts built by `alistInsert` never carry duplicate keys). -/
def alistFind {α : Type} : List (String × α) → String → Option α
  | [], _ => none
  | (k, v) :: rest, key => if k = key then some v else alistFind rest key

/-- Python `d[key] = value`: replace in place if the key exists,
append otherwise. -/
def alistInsert {α : Type} : List (String × α) → String → α → List (String × α)
  | [], key, value => [(key, value)]
  | (k, v) :: rest, key, value =>
      if k = key then (k, value) :: rest else (k, v) :: alistInsert rest key value

/-- The keys of an association list, in order. -/
def alistKeys {α : Type} (d : List (String × α)) : List String := d.map Prod.fst

/-- `d[k]` on an acronym table (total, defaulting to the empty record;
the code only indexes keys known to be present). -/
def alistGet (d : ATable) (key : String) : NameRecord :=
  (alistFind d key).getD ⟨[], []⟩

/-- Python `{**a, **b}` restricted to two arguments: start from `a` and
write every binding of `b` over it in order. -/
def pyUnion {α : Type} (a b : List (String × α)) : List (String × α) :=
  b.foldl (fun acc p => alistInsert acc p.1 p.2) a

/-- `value_dict.get(field, [])` where `field` is one of the two list
fields (`CheckAcronymAbbrAndFullDict` receives the field names
`"names_abbr"`/`"names_full"` as constructor arguments). -/
def recGet (rec : NameRecord) (field : String) : List String :=
  if field = "names_abbr" then rec.names_abbr
  else if field = "names_full" then rec.names_full
  else []

/-- ASCII model of Python `str.lower()`. -/
def lowerStr (s : String) : String := String.mk (s.data.map Char.toLower)

/-- `item.replace("(", "").replace(")", "")`: delete every parenthesis. -/
def stripParens (s : String) : String :=
  String.mk (s.data.filter (fun c => !(c = '(' || c = ')')))

/-- `item.lower().replace("(", "").replace(")", "")`: the normalization
used by the fuzzy matchers (`_check_matches` in `utils.py` and
`_check_match` in `run_generate_jsons.py`). -/
def normalizeName (s : String) : String := stripParens (lowerStr s)

/-- Python set-comprehension over a list: each element kept once
(membership is all that the duplicate check observes of the set). -/
def pydedup (l : List String) : List String :=
  l.foldl (fun acc x => if x ∈ acc then acc else acc ++ [x]) []

namespace CheckAcronymAbbrAndFullDict

/-- `_validate_lengths`, loop body threaded through an accumulator:
records whose two lists differ in length are dropped and falsify the
flag; the rest are written into `valid_data` in order. -/
def validateLengthsAux : ATable → ATable → Bool → ATable × Bool
  | [], acc, flag => (acc, flag)
  | (k, rec) :: rest, acc, flag =>
      if rec.names_abbr.length ≠ rec.names_full.length then
        validateLengthsAux rest acc false
      else
        validateLengthsAux rest (alistInsert acc k rec) flag

/-- `CheckAcronymAbbrAndFullDict._validate_lengths`. -/
def validateLengths (d : ATable) : ATable × Bool := validateLengthsAux d [] true

/-- One iteration of the `_check_duplicates` loop: the lowercased name
sets of the record are tested against the running seen-sets, and the
fresh names are added to them (also for records found duplicate, as in
the source, where additions happen inside the same element loop). -/
def dupStep (seenA seenF : List String) (rec : NameRecord) :
    Bool × List String × List String :=
  let abbrs := pydedup (rec.names_abbr.map lowerStr)
  let dupA := abbrs.any (fun a => decide (a ∈ seenA))
  let seenA' := seenA ++ abbrs.filter (fun a => !(decide (a ∈ seenA)))
  let fulls := pydedup (rec.names_full.map lowerStr)
  let dupF := fulls.any (fun a => decide (a ∈ seenF))
  let seenF' := seenF ++ fulls.filter (fun a => !(decide (a ∈ seenF)))
  (dupA || dupF, seenA', seenF')

/-- `_check_duplicates`, loop threaded through the two seen-sets, the
`valid_data` accumulator and the `all_unique` flag. -/
def checkDuplicatesAux : ATable → List String → List String → ATable → Bool → ATable × Bool
  | [], _, _, acc, flag => (acc, flag)
  | (k, rec) :: rest, seenA, seenF, acc, flag =>
      let step := dupStep seenA seenF rec
      if step.1 then
        checkDuplicatesAux rest step.2.1 step.2.2 acc false
      else
        checkDuplicatesAux rest step.2.1 step.2.2 (alistInsert acc k rec) flag

/-- `CheckAcronymAbbrAndFullDict._check_duplicates`. -/
def checkDuplicates (d : ATable) : ATable × Bool := checkDuplicatesAux d [] [] [] true

/-- Whether any normalized item of `other` is matched by an (anchored,
regex-as-equality) pattern built from the normalized items of `main`:
the per-pair body of `_check_matches` (truthiness of `matching_items`). -/
def hasMatchB (d : ATable) (field main other : String) : Bool :=
  ((recGet (alistGet d other) field).map normalizeName).any
    (fun item => ((recGet (alistGet d main) field).map normalizeName).any
      (fun pat => decide (pat = item)))

/-- One scan pass of `_check_matches` over the acronym list `acronyms`:
`main` is compared against `acronyms[i+1:]`; a record with matches is
reported only (flag falsified), one without is written to `valid_data`. -/
def matchPass (d : ATable) (field : String) : List String → ATable → Bool → ATable × Bool
  | [], acc, flag => (acc, flag)
  | main :: rest, acc, flag =>
      if rest.any (fun other => hasMatchB d field main other) then
        matchPass d field rest acc false
      else
        matchPass d field rest (alistInsert acc main (alistGet d main)) flag

/-- Code-point comparison of character lists: Python `str` comparison
is lexicographic on code points. -/
def charsLt : List Char → List Char → Bool
  | [], [] => false
  | [], _ :: _ => true
  | _ :: _, [] => false
  | a :: as, b :: bs =>
      if a.toNat < b.toNat then true
      else if b.toNat < a.toNat then false
      else charsLt as bs

/-- Python `s < t` on strings (lexicographic on code points). -/
def strLt (s t : String) : Bool := charsLt s.data t.data

/-- Ascending insertion of a string into a list (Python `sorted` on the
unique key list is any correct comparison sort). -/
def insertStr (s : String) : List String → List String
  | [] => [s]
  | t :: rest => if strLt s t then s :: t :: rest else t :: insertStr s rest

/-- `sorted(data.keys())`. -/
def sortStrings : List String → List String
  | [] => []
  | s :: rest => insertStr s (sortStrings rest)

/-- `CheckAcronymAbbrAndFullDict._check_matches`: two passes over the
sorted key list (ascending then descending) sharing `valid_data` and
the `no_matches` flag. -/
def checkMatches (d : ATable) (field : String) : ATable × Bool :=
  let ks := sortStrings (alistKeys d)
  let r1 := matchPass d field ks [] true
  matchPass d field ks.reverse r1.1 r1.2

/-- `CheckAcronymAbbrAndFullDict.run`: lengths, duplicates, then the
fuzzy match check on abbreviations and on full names; the verdict is
the conjunction of the four check flags. -/
def run (d : ATable) : ATable × Bool :=
  let r1 := validateLengths d
  let r2 := checkDuplicates r1.1
  let r3 := checkMatches r2.1 "names_abbr"
  let r4 := checkMatches r3.1 "names_full"
  (r4.1, r1.2 && r2.2 && r3.2 && r4.2)

end CheckAcronymAbbrAndFullDict

namespace GenerateDefaultJSONs

/-- Per-kind extraction configuration (the `config` table of
`parse_bibtex_file`): cite-key prefix, entry header literal that opens
the regex `@article\x7b(.*?),\s*([^@]*)\x7d` resp. its
`@inproceedings` twin, and the two field names. -/
structure EntryConfig where
  pfx : String
  header : String
  fullField : String
  abbrField : String

/-- `config["article"]`. -/
def articleConfig : EntryConfig :=
  ⟨"J_", "@article\x7b", "journaltitle", "shortjournal"⟩

/-- `config["inproceedings"]`. -/
def inproceedingsConfig : EntryConfig :=
  ⟨"C_", "@inproceedings\x7b", "booktitle", "eventtitle"⟩

/-- Index of the last closing brace in a character list, if any. -/
def lastBraceIdx : List Char → Option Nat
  | [] => none
  | c :: cs =>
      match lastBraceIdx cs with
      | some i => some (i + 1)
      | none => if c = '\x7d' then some 0 else none

/-- The continuation `\s*([^@]*)\x7d` of the entry regex after the
comma: skip whitespace greedily, let the greedy `[^@]*` backtrack to
the last closing brace inside the maximal `@`-free run, and return the
second capture group together with the unconsumed remainder. -/
def contMatch (r2 : List Char) : Option (List Char × List Char) :=
  let r3 := r2.dropWhile Char.isWhitespace
  let region := r3.takeWhile (fun c => !(c = '@'))
  match lastBraceIdx region with
  | none => none
  | some i => some (r3.take i, r3.drop (i + 1))

/-- The lazy group `(.*?)` followed by `,`: try each comma from the
left; on failure of the continuation the comma is swallowed into the
first capture group and the next comma is tried.  Returns the two
capture groups and the remainder after the consumed closing brace. -/
def tryEntry (acc : List Char) : List Char → Option (List Char × List Char × List Char)
  | [] => none
  | c :: cs =>
      if c = ',' then
        match contMatch cs with
        | some (g2, rem) => some (acc.reverse, g2, rem)
        | none => tryEntry (c :: acc) cs
      else tryEntry (c :: acc) cs

/-- `re.findall` of the entry pattern: scan left to right; at each
occurrence of the header literal attempt the tail match, resuming after
the match on success and one character later on failure (the pattern
starts with a literal, so intermediate positions cannot match).  Fuel
bounds the scan by the text length. -/
def findEntriesAux (header : List Char) : Nat → List Char → List (List Char × List Char)
  | 0, _ => []
  | _ + 1, [] => []
  | fuel + 1, c :: cs =>
      if header.isPrefixOf (c :: cs) then
        match tryEntry [] ((c :: cs).drop header.length) with
        | some (g1, g2, rem) => (g1, g2) :: findEntriesAux header fuel rem
        | none => findEntriesAux header fuel cs
      else findEntriesAux header fuel cs

/-- All `(cite_key, entry_content)` pairs of a kind in the text. -/
def findEntries (header : String) (content : String) : List (String × String) :=
  (findEntriesAux header.data (content.data.length + 1) content.data).map
    (fun p => (String.mk p.1, String.mk p.2))

/-- Attempt the field regex `field\s*=\s*\x7b([^\x7d]*)\x7d` anchored at
the start of `l`. -/
def matchFieldAt (field : List Char) (l : List Char) : Option (List Char) :=
  if field.isPrefixOf l then
    match (l.drop field.length).dropWhile Char.isWhitespace with
    | '=' :: r2 =>
        match r2.dropWhile Char.isWhitespace with
        | '\x7b' :: r4 =>
            let cap := r4.takeWhile (fun c => !(c = '\x7d'))
            if cap.length < r4.length then some cap else none
        | _ => none
    | _ => none
  else none

/-- `re.search` of the field regex: leftmost occurrence wins. -/
def searchFieldAux (field : List Char) : Nat → List Char → Option (List Char)
  | 0, _ => none
  | _ + 1, [] => none
  | fuel + 1, c :: cs =>
      match matchFieldAt field (c :: cs) with
      | some cap => some cap
      | none => searchFieldAux field fuel cs

/-- `re.search(rf"field\s*=\s*\x7b([^\x7d]*)\x7d", entry_content)`. -/
def searchField (field : String) (content : String) : Option String :=
  (searchFieldAux field.data (content.data.length + 1) content.data).map String.mk

/-- Python `str.strip()` (whitespace at both ends). -/
def trimStr (s : String) : String :=
  String.mk (((s.data.dropWhile Char.isWhitespace).reverse.dropWhile Char.isWhitespace).reverse)

/-- Python `cite_key.split("_")` (empty components preserved). -/
def splitUnderscoreAux : List Char → List Char → List String
  | [], acc => [String.mk acc.reverse]
  | c :: cs, acc =>
      if c = '_' then String.mk acc.reverse :: splitUnderscoreAux cs []
      else splitUnderscoreAux cs (c :: acc)

/-- `cite_key.split("_")`. -/
def splitUnderscore (s : String) : List String := splitUnderscoreAux s.data []

/-- The repeated-key update of `parse_bibtex_file` (lines 174-184): an
existing acronym record gains the `(full, abbr)` pair only when `full`
is not yet verbatim in its `names_full`; a fresh acronym starts a new
record. -/
def addPair (d : ATable) (key full abbr : String) : ATable :=
  match alistFind d key with
  | some rec =>
      if full ∈ rec.names_full then d
      else alistInsert d key ⟨rec.names_abbr ++ [abbr], rec.names_full ++ [full]⟩
  | none => alistInsert d key ⟨[abbr], [full]⟩

/-- The per-entry body of the `parse_bibtex_file` loop: prefix filter,
mandatory full-name field, abbreviation defaulting to the full name,
and the `len(parts) >= 3` cite-key shape gate. -/
def extractStep (cfg : EntryConfig) (d : ATable) (entry : String × String) : ATable :=
  if !(cfg.pfx.data.isPrefixOf entry.1.data) then d
  else
    match searchField cfg.fullField entry.2 with
    | none => d
    | some fullRaw =>
        let full := trimStr fullRaw
        let abbr :=
          match searchField cfg.abbrField entry.2 with
          | some a => trimStr a
          | none => full
        let parts := splitUnderscore entry.1
        if parts.length ≥ 3 then addPair d (parts.getD 1 "") full abbr else d

/-- The extraction proper of `parse_bibtex_file`: fold the per-entry
body over the entries found in the text. -/
def extractFromContent (cfg : EntryConfig) (content : String) : ATable :=
  (findEntries cfg.header content).foldl (extractStep cfg) []

/-- `GenerateDefaultJSONs.parse_bibtex_file`, with the file contents
passed in place of the path (`_read_str` is I/O): the entry-kind guard
raises `ValueError` before the file is read; for a supported kind the
configured extraction runs. -/
def parse_bibtex_file (entryType : String) (content : String) : Except String ATable :=
  if entryType ≠ "article" ∧ entryType ≠ "inproceedings" then
    Except.error "entry_type must be article or inproceedings"
  else
    let cfg := if entryType = "article" then articleConfig else inproceedingsConfig
    Except.ok (extractFromContent cfg content)

/-- The returned value of `_compare_and_return`: the candidate entries
whose keys are absent from the existing table.  The source materializes
`set(json_new) - set(json_old)` whose iteration order is unspecified;
the embedding fixes the candidate table's own order, which no claim
observes. -/
def compare_and_return (jsonOld jsonNew : ATable) : ATable :=
  jsonNew.filter (fun p => !(decide (p.1 ∈ alistKeys jsonOld)))

/-- The manual-review report of `_compare_and_return` for one common
key: both name lists pass through `item.replace("(", "").replace(")",
"")` built from the ORIGINAL items - the preceding `item.lower()`
comprehension is overwritten (dead) in the source - and a candidate
item is reported when it is neither verbatim in the old list nor
matched by an anchored (regex-as-equality) pattern from it. -/
def compareUnmatched (jsonOld jsonNew : ATable) (key : String) : List String :=
  let oldItems := (alistGet jsonOld key).names_full.map stripParens
  let newItems := (alistGet jsonNew key).names_full.map stripParens
  newItems.filter (fun n =>
    !(decide (n ∈ oldItems)) && !(oldItems.any (fun pat => decide (pat = n))))

/-- The comparison of `_check_match` for one ordered key pair: patterns
from the normalized full names of `ki`, tested against each normalized
full name of `key` (both sides `lower` then parenthesis-stripped, as in
lines 337-344 of `run_generate_jsons.py`). -/
def checkMatchHit (d : ATable) (ki key : String) : Bool :=
  ((alistGet d key).names_full).any (fun item =>
    (((alistGet d ki).names_full).map normalizeName).any
      (fun pat => decide (pat = normalizeName item)))

/-- The scan of `_check_match`: each key against all later keys, in the
table's own (insertion) order; `true` iff any `matched` list of the
source would be non-empty.  `_check_match` only prints these matches
and returns `None`. -/
def checkMatchScan (d : ATable) : List String → Bool
  | [] => false
  | k :: rest => rest.any (fun other => checkMatchHit d k other) || checkMatchScan d rest

/-- Whether `_check_match` finds any violation in a table. -/
def check_match_found (d : ATable) : Bool := checkMatchScan d (alistKeys d)

/-- Python `{**a, **b, **c}`: an empty dict written over by the three
sources in order, so the rightmost source wins on key collisions. -/
def threeUnion (a b c : ATable) : ATable := pyUnion (pyUnion (pyUnion [] a) b) c

/-- The table persisted by `run` for one namespace when `merge_json` is
set (lines 311-324 of `run_generate_jsons.py`): the candidate table is
first reduced to its new-only keys by `_compare_and_return`, then
`\x7b**json_new, **json_old, **user_json\x7d` is checked by
`_check_match` (report only) and saved unchanged. -/
def persistedTable (jsonOld parsedNew userJson : ATable) : ATable :=
  threeUnion (compare_and_return jsonOld parsedNew) jsonOld userJson

end GenerateDefaultJSONs

/-- A user-supplied nested JSON object: publisher, then namespace
section, then the per-acronym table. -/
abbrev UserJson := List (String × List (String × ATable))

/-- The `for flag in [...]` loop of
`process_user_conferences_journals_json` (`main/utils.py`, lines
121-124 / 141-144) and of the conference half of
`BasicInput._process_user_conferences_journals_json`: for each flag
build `\x7bp: json_dict[p].get(flag, \x7b\x7d) for p in json_dict\x7d`
and break as soon as that dict is truthy (which it is for every flag
whenever `json_dict` itself is non-empty); an exhausted loop leaves the
last computed value, the empty dict. -/
def tryFlags (flags : List String) (jd : UserJson) : List (String × ATable) :=
  match flags with
  | [] => []
  | f :: rest =>
      let d := jd.map (fun p => (p.1, (alistFind p.2 f).getD []))
      if d.isEmpty then tryFlags rest jd else d

/-- The flag loop of the journal half of
`BasicInput._process_user_conferences_journals_json`
(`main/basic_input.py`, lines 110-113), which looks up the literal
`"journals"` instead of the loop variable. -/
def tryFlagsBasicJournal (flags : List String) (jd : UserJson) : List (String × ATable) :=
  match flags with
  | [] => []
  | _f :: rest =>
      let d := jd.map (fun p => (p.1, (alistFind p.2 "journals").getD []))
      if d.isEmpty then tryFlagsBasicJournal rest jd else d

/-- `\x7babbr: v[abbr] for v in d.values() for abbr in v\x7d`: flatten
the per-publisher section dicts into one acronym table. -/
def flattenSections (d : List (String × ATable)) : ATable :=
  d.foldl (fun acc p => p.2.foldl (fun a q => alistInsert a q.1 q.2) acc) []

/-- `\x7bk: \x7b"names_full": v.get("names_full", []), "names_abbr":
v.get("names_abbr", [])\x7d for k, v in d.items()\x7d`. -/
def standardize (d : ATable) : ATable :=
  d.map (fun p => (p.1, ⟨p.2.names_abbr, p.2.names_full⟩))

/-- The conference-section flag vocabulary. -/
def conferenceFlags : List String :=
  ["conferences", "Conferences", "CONFERENCES", "conference", "Conference", "CONFERENCE"]

/-- The journal-section flag vocabulary. -/
def journalFlags : List String :=
  ["journals", "Journals", "JOURNALS", "journal", "Journal", "JOURNAL"]

/-- `process_user_conferences_journals_json` (`main/utils.py`), with
the two parsed JSON objects passed in place of the file paths
(`load_json_file` is I/O): returns the flattened, standardized
(conference, journal) tables. -/
def process_user_conferences_journals_json (jdC jdJ : UserJson) : ATable × ATable :=
  (standardize (flattenSections (tryFlags conferenceFlags jdC)),
   standardize (flattenSections (tryFlags journalFlags jdJ)))

/-- `BasicInput._process_user_conferences_journals_json`
(`main/basic_input.py`): its conference half is verbatim the same code
as in `utils.py`; its journal half uses the literal-key loop. -/
def basicInputProcessUser (jdC jdJ : UserJson) : ATable × ATable :=
  (standardize (flattenSections (tryFlags conferenceFlags jdC)),
   standardize (flattenSections (tryFlagsBasicJournal journalFlags jdJ)))

/-- The bibliography text of concrete scenario 1 of the specification:
two `C_NIPS` inproceedings entries carrying the same full name. -/
def nipsScenarioText : String :=
  "@inproceedings\x7bC_NIPS_2020, booktitle=\x7bAdvances in Neural Information Processing Systems\x7d, eventtitle=\x7bNeurIPS\x7d\x7d\n@inproceedings\x7bC_NIPS_2021, booktitle=\x7bAdvances in Neural Information Processing Systems\x7d, eventtitle=\x7bNeurIPS\x7d\x7d"

/-- All lowercased full names of a table, in order: the contribution of
the processed records to the `seen_fulls` set of `_check_duplicates`
(records found duplicate contribute too, as in the source). -/
def lowerFulls : ATable → List String
  | [] => []
  | (_, rec) :: rest => rec.names_full.map lowerStr ++ lowerFulls rest

/-- All lowercased abbreviations of a table, in order: the contribution
of the processed records to the `seen_abbrs` set of
`_check_duplicates`. -/
def lowerAbbrs : ATable → List String
  | [] => []
  | (_, rec) :: rest => rec.names_abbr.map lowerStr ++ lowerAbbrs rest

namespace CheckAcronymAbbrAndFullDict

/-- Whether, in the `_check_matches` pass over the acronym list `l`, a
match is found for acronym `k` when its turn comes: `k` is compared
against the acronyms following its (first) occurrence in `l`. -/
def foundInPass (d : ATable) (field : String) : List String → String → Bool
  | [], _ => false
  | main :: rest, k =>
      if main = k then rest.any (fun other => hasMatchB d field main other)
      else foundInPass d field rest k

/-- Whether some acronym of the pass list has a match against a later
one (the pass falsifies `no_matches` exactly then). -/
def anyFound (d : ATable) (field : String) : List String → Bool
  | [] => false
  | main :: rest =>
      rest.any (fun other => hasMatchB d field main other) || anyFound d field rest

/-- Whether a pass of `_check_matches` over the list `l` writes the key
`k` into `valid_data` (no match found at the occurrence of `k`). -/
def addedInPass (d : ATable) (field : String) : List String → String → Bool
  | [], _ => false
  | main :: rest, k =>
      if rest.any (fun other => hasMatchB d field main other) then
        addedInPass d field rest k
      else (main = k) || addedInPass d field rest k

end CheckAcronymAbbrAndFullDict

/-- Concrete two-record table sharing the full name `"X"` under the
distinct acronyms `"A"` and `"B"` (concrete scenario 3 of the
specification). -/
def sharedFullTable : ATable := [("A", ⟨["x"], ["X"]⟩), ("B", ⟨["y"], ["X"]⟩)]

/-- Concrete violation-free two-record table whose insertion order
(`"B"` before `"A"`) differs from sorted key order. -/
def unsortedCleanTable : ATable := [("B", ⟨["y"], ["Y"]⟩), ("A", ⟨["x"], ["X"]⟩)]

section AssocListLemmas

theorem mem_alistKeys_insert {α : Type} (d : List (String × α)) (key k : String) (v : α) :
    k ∈ alistKeys (alistInsert d key v) ↔ k ∈ alistKeys d ∨ k = key := by
  induction d with
  | nil => simp [alistInsert, alistKeys]
  | cons p rest ih =>
      obtain ⟨k0, v0⟩ := p
      by_cases h : k0 = key
      · subst h
        simp [alistInsert, alistKeys]
        tauto
      · simp [alistInsert, h, alistKeys] at ih ⊢
        tauto

theorem alistInsert_eq_append {α : Type} (d : List (String × α)) (key : String) (v : α)
    (h : key ∉ alistKeys d) : alistInsert d key v = d ++ [(key, v)] := by
  induction d with
  | nil => rfl
  | cons p rest ih =>
      simp [alistKeys] at h
      push_neg at h
      simp [alistInsert, Ne.symm h.1, ih (by simpa [alistKeys] using h.2)]

theorem alistKeys_insert_of_mem {α : Type} (d : List (String × α)) (key : String) (v : α)
    (h : key ∈ alistKeys d) : alistKeys (alistInsert d key v) = alistKeys d := by
  induction d with
  | nil => simp [alistKeys] at h
  | cons p rest ih =>
      obtain ⟨k0, v0⟩ := p
      by_cases hk : k0 = key
      · simp [alistInsert, hk, alistKeys]
      · have h' : key ∈ alistKeys rest := by
          simp only [alistKeys, List.map_cons, List.mem_cons] at h
          rcases h with h | h
          · exact absurd h.symm hk
          · exact h
        simp only [alistInsert, if_neg hk, alistKeys, List.map_cons]
        show k0 :: alistKeys (alistInsert rest key v) = k0 :: alistKeys rest
        rw [ih h']

theorem alistFind_eq_none {α : Type} (d : List (String × α)) (k : String) :
    alistFind d k = none ↔ k ∉ alistKeys d := by
  induction d with
  | nil => simp [alistFind, alistKeys]
  | cons p rest ih =>
      obtain ⟨k0, v0⟩ := p
      by_cases h : k0 = k
      · simp [alistFind, h, alistKeys]
      · simp [alistFind, h, alistKeys, ih, Ne.symm h]

theorem alistFind_insert {α : Type} (d : List (String × α)) (key k : String) (v : α) :
    alistFind (alistInsert d key v) k = if key = k then some v else alistFind d k := by
  induction d with
  | nil => simp [alistInsert, alistFind]
  | cons p rest ih =>
      obtain ⟨k0, v0⟩ := p
      by_cases h0 : k0 = key
      · subst h0
        by_cases hk : k0 = k <;> simp [alistInsert, alistFind, hk]
      · by_cases hk : k0 = k
        · subst hk
          have hne : key ≠ k0 := fun h => h0 h.symm
          simp [alistInsert, h0, alistFind, hne]
        · simp [alistInsert, h0, alistFind, hk, ih]

theorem mem_keys_pyUnion_left {α : Type} (b : List (String × α)) :
    ∀ (a : List (String × α)) (k : String), k ∈ alistKeys a → k ∈ alistKeys (pyUnion a b) := by
  induction b with
  | nil => intro a k h; simpa [pyUnion] using h
  | cons p rest ih =>
      intro a k h
      have : k ∈ alistKeys (alistInsert a p.1 p.2) := by
        rw [mem_alistKeys_insert]; exact Or.inl h
      simpa [pyUnion] using ih (alistInsert a p.1 p.2) k this

theorem mem_keys_pyUnion_right {α : Type} (b : List (String × α)) :
    ∀ (a : List (String × α)) (k : String), k ∈ alistKeys b → k ∈ alistKeys (pyUnion a b) := by
  induction b with
  | nil => intro a k h; simp [alistKeys] at h
  | cons p rest ih =>
      intro a k h
      simp only [alistKeys, List.map_cons, List.mem_cons] at h
      rcases h with h | h
      · have : k ∈ alistKeys (alistInsert a p.1 p.2) := by
          rw [mem_alistKeys_insert]; exact Or.inr h
        simpa [pyUnion] using mem_keys_pyUnion_left rest (alistInsert a p.1 p.2) k this
      · simpa [pyUnion] using ih (alistInsert a p.1 p.2) k h

theorem alistFind_pyUnion {α : Type} (b : List (String × α)) :
    ∀ (a : List (String × α)) (k : String), (alistKeys b).Nodup →
      alistFind (pyUnion a b) k = ((alistFind b k).orElse (fun _ => alistFind a k)) := by
  induction b with
  | nil => intro a k _; simp [pyUnion, alistFind, Option.orElse]
  | cons p rest ih =>
      intro a k hnd
      obtain ⟨k0, v0⟩ := p
      simp only [alistKeys, List.map_cons, List.nodup_cons] at hnd
      have step : pyUnion a ((k0, v0) :: rest) = pyUnion (alistInsert a k0 v0) rest := by
        simp [pyUnion]
      rw [step, ih (alistInsert a k0 v0) k hnd.2]
      by_cases hk : k0 = k
      · subst hk
        have hnone : alistFind rest k0 = none := (alistFind_eq_none rest k0).2 hnd.1
        simp [hnone, alistFind, alistFind_insert, Option.orElse]
      · simp [alistFind, hk, alistFind_insert, Option.orElse]

end AssocListLemmas

section ClaimC6

/-- Claim C6 (confirmed): the Merger combines the three tables by key
union with priority user over old over new - `\x7b**json_new,
**json_old, **user_json\x7d` resolves every key to the user binding
when present, else to the old binding, else to the new one - and on the
concrete scenario default `\x7b"A": v1\x7d`, user `\x7b"A": v2\x7d`,
new `\x7b\x7d` the result is `\x7b"A": v2\x7d`. -/
theorem merger_priority_user_old_new :
    (∀ (jsonNew jsonOld userJson : ATable),
        (alistKeys jsonNew).Nodup → (alistKeys jsonOld).Nodup → (alistKeys userJson).Nodup →
        ∀ k, alistFind (GenerateDefaultJSONs.threeUnion jsonNew jsonOld userJson) k =
          ((alistFind userJson k).orElse (fun _ =>
            (alistFind jsonOld k).orElse (fun _ => alistFind jsonNew k))))
    ∧ GenerateDefaultJSONs.threeUnion [] [("A", ⟨["a1"], ["v1"]⟩)] [("A", ⟨["a2"], ["v2"]⟩)] =
        [("A", ⟨["a2"], ["v2"]⟩)] := by
  constructor
  · intro jsonNew jsonOld userJson hN hO hU k
    unfold GenerateDefaultJSONs.threeUnion
    rw [alistFind_pyUnion userJson _ k hU, alistFind_pyUnion jsonOld _ k hO,
      alistFind_pyUnion jsonNew _ k hN]
    cases alistFind userJson k <;> cases alistFind jsonOld k <;>
      cases h : alistFind jsonNew k <;> simp [alistFind, Option.orElse]
  · decide

/-- Witness for C6: the general priority equation applied at the
concrete scenario tables and key `"A"`. -/
theorem merger_priority_user_old_new_witness :
    (alistKeys ([] : ATable)).Nodup ∧
    (alistKeys [("A", (⟨["a1"], ["v1"]⟩ : NameRecord))]).Nodup ∧
    (alistKeys [("A", (⟨["a2"], ["v2"]⟩ : NameRecord))]).Nodup ∧
    alistFind (GenerateDefaultJSONs.threeUnion [] [("A", ⟨["a1"], ["v1"]⟩)]
        [("A", ⟨["a2"], ["v2"]⟩)]) "A" =
      ((alistFind [("A", (⟨["a2"], ["v2"]⟩ : NameRecord))] "A").orElse (fun _ =>
        (alistFind [("A", (⟨["a1"], ["v1"]⟩ : NameRecord))] "A").orElse (fun _ =>
          alistFind ([] : ATable) "A"))) :=
  ⟨by decide, by decide, by decide,
    merger_priority_user_old_new.1 [] [("A", ⟨["a1"], ["v1"]⟩)] [("A", ⟨["a2"], ["v2"]⟩)]
      (by decide) (by decide) (by decide) "A"⟩

end ClaimC6

section ClaimC1

/-- Counterexample to claim C1: with existing table `{"A": ...["X"]}`,
freshly parsed `{"B": ...["X"]}` and empty user table, the post-merge
`_check_match` does find a violation (shared full name `"X"` between
`"B"` and `"A"`), yet the table handed to `save_to_json` still contains
the implicated new-only key `"B"` - nothing is excluded or re-merged,
so the persisted table is not re-validated clean. -/
theorem merger_no_exclusion_counterexample :
    GenerateDefaultJSONs.check_match_found
      (GenerateDefaultJSONs.persistedTable
        [("A", ⟨["x"], ["X"]⟩)] [("B", ⟨["y"], ["X"]⟩)] []) = true
    ∧ GenerateDefaultJSONs.persistedTable
        [("A", ⟨["x"], ["X"]⟩)] [("B", ⟨["y"], ["X"]⟩)] []
      = [("B", ⟨["y"], ["X"]⟩), ("A", ⟨["x"], ["X"]⟩)] := by decide

/-- Claim C1 (amended): the merge-and-save step of
`GenerateDefaultJSONs.run` only reports the violations found by
`_check_match` and persists the priority union unchanged - every key of
the new-only contribution remains a key of the persisted table, whether
or not it is implicated in a violation. -/
theorem merger_reports_only_never_excludes :
    ∀ (jsonOld parsedNew userJson : ATable) (k : String),
      k ∈ alistKeys (GenerateDefaultJSONs.compare_and_return jsonOld parsedNew) →
      k ∈ alistKeys (GenerateDefaultJSONs.persistedTable jsonOld parsedNew userJson) := by
  intro jsonOld parsedNew userJson k hk
  unfold GenerateDefaultJSONs.persistedTable GenerateDefaultJSONs.threeUnion
  exact mem_keys_pyUnion_left _ _ _ (mem_keys_pyUnion_left _ _ _
    (mem_keys_pyUnion_right _ [] _ hk))

/-- Witness for the amended C1 at the counterexample tables: the
implicated key `"B"` is in the new-only table and stays in the
persisted table. -/
theorem merger_reports_only_never_excludes_witness :
    "B" ∈ alistKeys (GenerateDefaultJSONs.compare_and_return
        [("A", ⟨["x"], ["X"]⟩)] [("B", ⟨["y"], ["X"]⟩)])
    ∧ "B" ∈ alistKeys (GenerateDefaultJSONs.persistedTable
        [("A", ⟨["x"], ["X"]⟩)] [("B", ⟨["y"], ["X"]⟩)] []) :=
  ⟨by decide,
    merger_reports_only_never_excludes [("A", ⟨["x"], ["X"]⟩)] [("B", ⟨["y"], ["X"]⟩)] [] "B"
      (by decide)⟩

end ClaimC1

section ClaimC5

/-- Claim C5 (code bug): `_compare_and_return` strips parentheses but
does NOT lowercase - the `item.lower()` comprehensions on lines 242 and
245 are immediately overwritten by comprehensions over the original
lists - so the candidate full name `"foo"` under key `"A"`, differing
from the existing `"Foo"` only in case, IS reported as requiring
manual review, although the same normalization applied as specified
(`normalizeName`) identifies the two names. -/
theorem differ_overlap_missing_lowercase_bug :
    GenerateDefaultJSONs.compareUnmatched
      [("A", ⟨[], ["Foo"]⟩)] [("A", ⟨[], ["foo"]⟩)] "A" = ["foo"]
    ∧ normalizeName "Foo" = normalizeName "foo" := by decide

end ClaimC5

section ClaimC8

/-- Claim C8 (code bug): the flag loop of
`process_user_conferences_journals_json` breaks on its FIRST iteration
whenever the user JSON is non-empty, because the comprehension
`\x7bp: json_dict[p].get(flag, \x7b\x7d) for p in json_dict\x7d` is
truthy regardless of whether any publisher carries the flag; hence a
section key spelled `"Conferences"` flattens to the empty table while
the same data under `"conferences"` flattens to the per-acronym
table - the six spellings are not interchangeable. -/
theorem flatten_section_flag_break_bug :
    process_user_conferences_journals_json
      [("pub", [("Conferences", [("A", ⟨["a"], ["Alpha"]⟩)])])] [] = ([], [])
    ∧ process_user_conferences_journals_json
      [("pub", [("conferences", [("A", ⟨["a"], ["Alpha"]⟩)])])] [] =
      ([("A", ⟨["a"], ["Alpha"]⟩)], []) := by decide

end ClaimC8

section ClaimC9

/-- Claim C9 (confirmed): `parse_bibtex_file` fails with the
entry-kind `ValueError` exactly when the kind is outside
`{"article", "inproceedings"}`, and for an invalid kind the failure
does not depend on the input text (the guard precedes the read). -/
theorem extractor_entry_kind_guard :
    ∀ (entryType : String),
      (∀ content, (∃ r, GenerateDefaultJSONs.parse_bibtex_file entryType content =
          Except.ok r) ↔ (entryType = "article" ∨ entryType = "inproceedings"))
      ∧ (entryType ≠ "article" → entryType ≠ "inproceedings" →
          ∀ c c', GenerateDefaultJSONs.parse_bibtex_file entryType c =
            GenerateDefaultJSONs.parse_bibtex_file entryType c') := by
  intro entryType
  constructor
  · intro content
    unfold GenerateDefaultJSONs.parse_bibtex_file
    by_cases hA : entryType = "article"
    · simp [hA]
    · by_cases hI : entryType = "inproceedings" <;> simp [hA, hI]
  · intro hA hI c c'
    unfold GenerateDefaultJSONs.parse_bibtex_file
    simp [hA, hI]

/-- Witness for C9 at the unsupported kind `"book"`: the guard fires
independently of the content. -/
theorem extractor_entry_kind_guard_witness :
    ("book" : String) ≠ "article" ∧ ("book" : String) ≠ "inproceedings" ∧
    GenerateDefaultJSONs.parse_bibtex_file "book" "@book\x7bB_X_1, title=\x7bT\x7d\x7d" =
      GenerateDefaultJSONs.parse_bibtex_file "book" "" :=
  ⟨by decide, by decide,
    (extractor_entry_kind_guard "book").2 (by decide) (by decide) _ _⟩

end ClaimC9

section ClaimC7

/-- Claim C7 (confirmed): on a repeated acronym key the Extractor
appends the new (full, abbr) pair only when the full name is not yet
verbatim in the record's full-name list (an already-present full name
leaves the table unchanged), and on the two `C_NIPS` inproceedings
entries of scenario 1 the parse yields exactly
`\x7b"NIPS": \x7b"names_full": ["Advances in Neural Information
Processing Systems"], "names_abbr": ["NeurIPS"]\x7d\x7d`. -/
theorem extractor_repeated_key_dedup :
    (∀ (d : ATable) (key full abbr : String) (rec : NameRecord),
        alistFind d key = some rec → full ∈ rec.names_full →
        GenerateDefaultJSONs.addPair d key full abbr = d)
    ∧ GenerateDefaultJSONs.parse_bibtex_file "inproceedings" nipsScenarioText =
        Except.ok
          [("NIPS", ⟨["NeurIPS"], ["Advances in Neural Information Processing Systems"]⟩)] := by
  constructor
  · intro d key full abbr rec hfind hmem
    simp [GenerateDefaultJSONs.addPair, hfind, hmem]
  · set_option maxRecDepth 100000 in rfl

/-- Witness for C7 at the scenario's own second entry: the key
`"NIPS"` is present with the full name already recorded, and `addPair`
leaves the table unchanged. -/
theorem extractor_repeated_key_dedup_witness :
    alistFind [("NIPS", (⟨["NeurIPS"],
        ["Advances in Neural Information Processing Systems"]⟩ : NameRecord))] "NIPS" =
      some ⟨["NeurIPS"], ["Advances in Neural Information Processing Systems"]⟩
    ∧ "Advances in Neural Information Processing Systems" ∈
        (⟨["NeurIPS"], ["Advances in Neural Information Processing Systems"]⟩ :
          NameRecord).names_full
    ∧ GenerateDefaultJSONs.addPair
        [("NIPS", ⟨["NeurIPS"], ["Advances in Neural Information Processing Systems"]⟩)]
        "NIPS" "Advances in Neural Information Processing Systems" "NeurIPS" =
      [("NIPS", ⟨["NeurIPS"], ["Advances in Neural Information Processing Systems"]⟩)] :=
  ⟨by decide, by decide,
    extractor_repeated_key_dedup.1
      [("NIPS", ⟨["NeurIPS"], ["Advances in Neural Information Processing Systems"]⟩)]
      "NIPS" "Advances in Neural Information Processing Systems" "NeurIPS"
      ⟨["NeurIPS"], ["Advances in Neural Information Processing Systems"]⟩
      (by decide) (by decide)⟩

end ClaimC7

section ClaimC10

/-- Helper for C10: on the journal flag vocabulary the two loop bodies
agree - for a non-empty user JSON both break at the first flag (where
the loop variable IS the literal `"journals"`), and for an empty one
both fall through to the empty dict. -/
theorem tryFlags_journal_agree (jd : UserJson) :
    tryFlags journalFlags jd = tryFlagsBasicJournal journalFlags jd := by
  cases jd with
  | nil => rfl
  | cons p rest =>
      simp [tryFlags, tryFlagsBasicJournal, journalFlags, List.isEmpty]

/-- Claim C10 (confirmed): `process_user_conferences_journals_json`
(`main/utils.py`) and `BasicInput._process_user_conferences_journals_json`
(`main/basic_input.py`) compute the same flattened (conference,
journal) table pair on every input: the conference halves are verbatim
the same code, and the journal halves agree because both loops always
act with the `"journals"` key (the flag loop breaks on its first
iteration for non-empty input and yields the empty dict otherwise). -/
theorem user_flatten_implementations_agree :
    ∀ (jdC jdJ : UserJson),
      process_user_conferences_journals_json jdC jdJ = basicInputProcessUser jdC jdJ := by
  intro jdC jdJ
  unfold process_user_conferences_journals_json basicInputProcessUser
  rw [tryFlags_journal_agree]

end ClaimC10

section ClaimC2

open CheckAcronymAbbrAndFullDict

theorem mem_foldl_dedup (l : List String) :
    ∀ (acc : List String) (x : String),
      x ∈ l.foldl (fun acc x => if x ∈ acc then acc else acc ++ [x]) acc ↔
        x ∈ acc ∨ x ∈ l := by
  induction l with
  | nil => simp
  | cons y l' ih =>
      intro acc x
      simp only [List.foldl_cons]
      rw [ih]
      by_cases hy : y ∈ acc
      · by_cases hxy : x = y
        · subst hxy
          simp [hy]
        · simp [hy, hxy]
      · simp [hy, List.mem_append]
        tauto

theorem mem_pydedup (l : List String) (x : String) : x ∈ pydedup l ↔ x ∈ l := by
  unfold pydedup
  rw [mem_foldl_dedup]
  simp

theorem dupStep_flag_full (seenA seenF : List String) (rec : NameRecord) (s : String)
    (h1 : s ∈ rec.names_full.map lowerStr) (h2 : s ∈ seenF) :
    (dupStep seenA seenF rec).1 = true := by
  have hs : s ∈ pydedup (rec.names_full.map lowerStr) := (mem_pydedup _ _).2 h1
  simp only [dupStep, Bool.or_eq_true, List.any_eq_true]
  exact Or.inr ⟨s, hs, by simpa using h2⟩

theorem dupStep_flag_abbr (seenA seenF : List String) (rec : NameRecord) (s : String)
    (h1 : s ∈ rec.names_abbr.map lowerStr) (h2 : s ∈ seenA) :
    (dupStep seenA seenF rec).1 = true := by
  have hs : s ∈ pydedup (rec.names_abbr.map lowerStr) := (mem_pydedup _ _).2 h1
  simp only [dupStep, Bool.or_eq_true, List.any_eq_true]
  exact Or.inl ⟨s, hs, by simpa using h2⟩

theorem dupStep_seenF_mono (seenA seenF : List String) (rec : NameRecord) (s : String)
    (h : s ∈ seenF) : s ∈ (dupStep seenA seenF rec).2.2 := by
  simp only [dupStep]
  exact List.mem_append_left _ h

theorem dupStep_seenF_add (seenA seenF : List String) (rec : NameRecord) (s : String)
    (h : s ∈ rec.names_full.map lowerStr) : s ∈ (dupStep seenA seenF rec).2.2 := by
  by_cases hs : s ∈ seenF
  · exact dupStep_seenF_mono seenA seenF rec s hs
  · simp only [dupStep]
    refine List.mem_append_right _ ?_
    rw [List.mem_filter]
    exact ⟨(mem_pydedup _ _).2 h, by simpa using hs⟩

theorem dupStep_seenA_mono (seenA seenF : List String) (rec : NameRecord) (s : String)
    (h : s ∈ seenA) : s ∈ (dupStep seenA seenF rec).2.1 := by
  simp only [dupStep]
  exact List.mem_append_left _ h

theorem dupStep_seenA_add (seenA seenF : List String) (rec : NameRecord) (s : String)
    (h : s ∈ rec.names_abbr.map lowerStr) : s ∈ (dupStep seenA seenF rec).2.1 := by
  by_cases hs : s ∈ seenA
  · exact dupStep_seenA_mono seenA seenF rec s hs
  · simp only [dupStep]
    refine List.mem_append_right _ ?_
    rw [List.mem_filter]
    exact ⟨(mem_pydedup _ _).2 h, by simpa using hs⟩

theorem checkDupAux_cons (k : String) (rec : NameRecord) (rest : ATable)
    (sA sF : List String) (acc : ATable) (flag : Bool) :
    checkDuplicatesAux ((k, rec) :: rest) sA sF acc flag =
      if (dupStep sA sF rec).1 then
        checkDuplicatesAux rest (dupStep sA sF rec).2.1 (dupStep sA sF rec).2.2 acc false
      else
        checkDuplicatesAux rest (dupStep sA sF rec).2.1 (dupStep sA sF rec).2.2
          (alistInsert acc k rec) flag := rfl

theorem checkDupAux_flag_false (l : ATable) :
    ∀ (sA sF : List String) (acc : ATable),
      (checkDuplicatesAux l sA sF acc false).2 = false := by
  induction l with
  | nil => intro sA sF acc; rfl
  | cons p rest ih =>
      intro sA sF acc
      obtain ⟨k, rec⟩ := p
      rw [checkDupAux_cons]
      by_cases h : (dupStep sA sF rec).1 <;> simp [h, ih]

theorem checkDupAux_keys (l : ATable) :
    ∀ (sA sF : List String) (acc : ATable) (flag : Bool) (k : String),
      k ∉ alistKeys acc → k ∉ alistKeys l →
      k ∉ alistKeys (checkDuplicatesAux l sA sF acc flag).1 := by
  induction l with
  | nil => intro sA sF acc flag k hacc _; exact hacc
  | cons p rest ih =>
      intro sA sF acc flag k hacc hl
      obtain ⟨k0, rec0⟩ := p
      have hk0 : k ≠ k0 := by
        intro h; exact hl (by simp [alistKeys, h])
      have hrest : k ∉ alistKeys rest := by
        intro h; exact hl (by simp [alistKeys] at h ⊢; tauto)
      rw [checkDupAux_cons]
      by_cases h : (dupStep sA sF rec0).1
      · simp only [h, if_true]
        exact ih _ _ acc false k hacc hrest
      · simp only [h, if_false]
        refine ih _ _ _ flag k ?_ hrest
        rw [mem_alistKeys_insert]
        rintro (h' | h')
        · exact hacc h'
        · exact hk0 h'

theorem checkDupAux_drop (pre : ATable) :
    ∀ (sA sF : List String) (acc : ATable) (flag : Bool)
      (k : String) (rec : NameRecord) (post : ATable),
      ((∃ s, s ∈ rec.names_full.map lowerStr ∧ s ∈ sF ++ lowerFulls pre) ∨
       (∃ s, s ∈ rec.names_abbr.map lowerStr ∧ s ∈ sA ++ lowerAbbrs pre)) →
      k ∉ alistKeys pre → k ∉ alistKeys post → k ∉ alistKeys acc →
      (checkDuplicatesAux (pre ++ (k, rec) :: post) sA sF acc flag).2 = false ∧
      k ∉ alistKeys (checkDuplicatesAux (pre ++ (k, rec) :: post) sA sF acc flag).1 := by
  induction pre with
  | nil =>
      intro sA sF acc flag k rec post hseen _ hpost hacc
      have hdup : (dupStep sA sF rec).1 = true := by
        rcases hseen with ⟨s, h1, h2⟩ | ⟨s, h1, h2⟩
        · exact dupStep_flag_full sA sF rec s h1 (by simpa [lowerFulls] using h2)
        · exact dupStep_flag_abbr sA sF rec s h1 (by simpa [lowerAbbrs] using h2)
      rw [List.nil_append, checkDupAux_cons, hdup, if_pos rfl]
      exact ⟨checkDupAux_flag_false post _ _ acc,
        checkDupAux_keys post _ _ acc false k hacc hpost⟩
  | cons p pre' ih =>
      intro sA sF acc flag k rec post hseen hpre hpost hacc
      obtain ⟨k0, rec0⟩ := p
      have hk0 : k ≠ k0 := by
        intro h; exact hpre (by simp [alistKeys, h])
      have hpre' : k ∉ alistKeys pre' := by
        intro h; exact hpre (by simp [alistKeys] at h ⊢; tauto)
      have hseen' :
          (∃ s, s ∈ rec.names_full.map lowerStr ∧
              s ∈ (dupStep sA sF rec0).2.2 ++ lowerFulls pre') ∨
          (∃ s, s ∈ rec.names_abbr.map lowerStr ∧
              s ∈ (dupStep sA sF rec0).2.1 ++ lowerAbbrs pre') := by
        rcases hseen with ⟨s, h1, h2⟩ | ⟨s, h1, h2⟩
        · refine Or.inl ⟨s, h1, ?_⟩
          rw [List.mem_append] at h2 ⊢
          rcases h2 with h2 | h2
          · exact Or.inl (dupStep_seenF_mono sA sF rec0 s h2)
          · simp only [lowerFulls, List.mem_append] at h2
            rcases h2 with h2 | h2
            · exact Or.inl (dupStep_seenF_add sA sF rec0 s h2)
            · exact Or.inr h2
        · refine Or.inr ⟨s, h1, ?_⟩
          rw [List.mem_append] at h2 ⊢
          rcases h2 with h2 | h2
          · exact Or.inl (dupStep_seenA_mono sA sF rec0 s h2)
          · simp only [lowerAbbrs, List.mem_append] at h2
            rcases h2 with h2 | h2
            · exact Or.inl (dupStep_seenA_add sA sF rec0 s h2)
            · exact Or.inr h2
      rw [List.cons_append, checkDupAux_cons]
      by_cases h : (dupStep sA sF rec0).1
      · simp only [h, if_true]
        exact ih _ _ acc false k rec post hseen' hpre' hpost hacc
      · simp only [h, if_false]
        refine ih _ _ _ flag k rec post hseen' hpre' hpost ?_
        rw [mem_alistKeys_insert]
        rintro (h' | h')
        · exact hacc h'
        · exact hk0 h'

/-- Counterexample to claim C2: on the scenario table the Validator
returns `(\x7b"A": ...\x7d, false)` - record `"A"`, which introduced
the duplicated full name `"X"`, is retained - and not the empty table
the claim requires. -/
theorem validator_duplicate_counterexample :
    CheckAcronymAbbrAndFullDict.run [("A", ⟨["x"], ["X"]⟩), ("B", ⟨["y"], ["X"]⟩)] =
      ([("A", ⟨["x"], ["X"]⟩)], false)
    ∧ (CheckAcronymAbbrAndFullDict.run [("A", ⟨["x"], ["X"]⟩), ("B", ⟨["y"], ["X"]⟩)]).1 ≠
        [] := by decide

/-- Claim C2 (amended): on the scenario table the Validator drops only
record `"B"` (the later record whose full name `"X"` was already seen),
returning `\x7b"A": ...\x7d` with validity `false`; in general, a
record one of whose lowercased names (full or abbreviated) already
occurs among the names of the records processed before it is dropped
entirely by the duplicate check and the flag becomes `false` - while
the earlier record that first introduced the name is not dropped on
that account. -/
theorem validator_duplicate_drops_later_record :
    (CheckAcronymAbbrAndFullDict.run [("A", ⟨["x"], ["X"]⟩), ("B", ⟨["y"], ["X"]⟩)] =
      ([("A", ⟨["x"], ["X"]⟩)], false))
    ∧ ∀ (pre : ATable) (k : String) (rec : NameRecord) (post : ATable),
        ((∃ s, s ∈ rec.names_full.map lowerStr ∧ s ∈ lowerFulls pre) ∨
         (∃ s, s ∈ rec.names_abbr.map lowerStr ∧ s ∈ lowerAbbrs pre)) →
        k ∉ alistKeys pre → k ∉ alistKeys post →
        (CheckAcronymAbbrAndFullDict.checkDuplicates (pre ++ (k, rec) :: post)).2 = false ∧
        k ∉ alistKeys (CheckAcronymAbbrAndFullDict.checkDuplicates (pre ++ (k, rec) :: post)).1 := by
  constructor
  · decide
  · intro pre k rec post hseen hpre hpost
    unfold CheckAcronymAbbrAndFullDict.checkDuplicates
    refine checkDupAux_drop pre [] [] [] true k rec post ?_ hpre hpost (by simp [alistKeys])
    simpa using hseen

/-- Witness for the amended C2 at the scenario table: `pre` is record
`"A"`, the dropped record is `"B"` with the already-seen full name
`"X"`. -/
theorem validator_duplicate_drops_later_record_witness :
    ((∃ s, s ∈ ((⟨["y"], ["X"]⟩ : NameRecord)).names_full.map lowerStr ∧
        s ∈ lowerFulls [("A", ⟨["x"], ["X"]⟩)]) ∨
     (∃ s, s ∈ ((⟨["y"], ["X"]⟩ : NameRecord)).names_abbr.map lowerStr ∧
        s ∈ lowerAbbrs [("A", ⟨["x"], ["X"]⟩)]))
    ∧ "B" ∉ alistKeys [("A", (⟨["x"], ["X"]⟩ : NameRecord))]
    ∧ "B" ∉ alistKeys ([] : ATable)
    ∧ (CheckAcronymAbbrAndFullDict.checkDuplicates
        ([("A", ⟨["x"], ["X"]⟩)] ++ ("B", ⟨["y"], ["X"]⟩) :: [])).2 = false
    ∧ "B" ∉ alistKeys (CheckAcronymAbbrAndFullDict.checkDuplicates
        ([("A", ⟨["x"], ["X"]⟩)] ++ ("B", ⟨["y"], ["X"]⟩) :: [])).1 := by
  refine ⟨Or.inl ⟨"x", by decide, by decide⟩, by decide, by decide, ?_⟩
  have h := validator_duplicate_drops_later_record.2
    [("A", ⟨["x"], ["X"]⟩)] "B" ⟨["y"], ["X"]⟩ []
    (Or.inl ⟨"x", by decide, by decide⟩) (by decide) (by decide)
  exact h

end ClaimC2


section ClaimC3

open CheckAcronymAbbrAndFullDict

theorem matchPass_flag (d : ATable) (field : String) (l : List String) :
    ∀ (acc : ATable) (b : Bool),
      (matchPass d field l acc b).2 = (b && !(anyFound d field l)) := by
  induction l with
  | nil => intro acc b; simp [matchPass, anyFound]
  | cons main rest ih =>
      intro acc b
      by_cases h : rest.any (fun other => hasMatchB d field main other)
      · simp [matchPass, anyFound, h, ih]
      · simp [matchPass, anyFound, h, ih]

theorem matchPass_mem_keys (d : ATable) (field : String) (l : List String) :
    ∀ (acc : ATable) (b : Bool) (k : String),
      k ∈ alistKeys (matchPass d field l acc b).1 ↔
        k ∈ alistKeys acc ∨ addedInPass d field l k = true := by
  induction l with
  | nil => intro acc b k; simp [matchPass, addedInPass]
  | cons main rest ih =>
      intro acc b k
      by_cases h : rest.any (fun other => hasMatchB d field main other)
      · simp [matchPass, addedInPass, h, ih]
      · simp only [matchPass, h, Bool.false_eq_true, if_false, ih,
          mem_alistKeys_insert, addedInPass, Bool.or_eq_true, decide_eq_true_eq]
        constructor
        · rintro ((h' | h') | h')
          · exact Or.inl h'
          · exact Or.inr (Or.inl h'.symm)
          · exact Or.inr (Or.inr h')
        · rintro (h' | h' | h')
          · exact Or.inl (Or.inl h')
          · exact Or.inl (Or.inr h'.symm)
          · exact Or.inr h'

theorem addedInPass_mem (d : ATable) (field : String) (l : List String) :
    ∀ (k : String), addedInPass d field l k = true → k ∈ l := by
  induction l with
  | nil => intro k h; simp [addedInPass] at h
  | cons main rest ih =>
      intro k h
      by_cases hc : rest.any (fun other => hasMatchB d field main other)
      · rw [show addedInPass d field (main :: rest) k = addedInPass d field rest k by
          simp [addedInPass, hc]] at h
        exact List.mem_cons_of_mem _ (ih k h)
      · rw [show addedInPass d field (main :: rest) k =
            (decide (main = k) || addedInPass d field rest k) by
          simp [addedInPass, hc]] at h
        rcases Bool.or_eq_true_iff.1 h with h' | h'
        · exact (of_decide_eq_true h') ▸ List.mem_cons_self _ _
        · exact List.mem_cons_of_mem _ (ih k h')

theorem addedInPass_iff (d : ATable) (field : String) (l : List String) :
    l.Nodup → ∀ (k : String),
      (addedInPass d field l k = true ↔
        k ∈ l ∧ foundInPass d field l k = false) := by
  induction l with
  | nil => intro _ k; simp [addedInPass, foundInPass]
  | cons main rest ih =>
      intro hnd k
      rw [List.nodup_cons] at hnd
      by_cases hk : main = k
      · subst hk
        have hnotin : addedInPass d field rest main = false := by
          cases h : addedInPass d field rest main
          · rfl
          · exact absurd (addedInPass_mem d field rest main h) hnd.1
        by_cases hc : rest.any (fun other => hasMatchB d field main other)
        · simp [addedInPass, foundInPass, hc, hnotin]
        · simp [addedInPass, foundInPass, hc]
      · have hne : k ≠ main := fun h => hk h.symm
        have hfound : foundInPass d field (main :: rest) k = foundInPass d field rest k := by
          simp [foundInPass, hk]
        by_cases hc : rest.any (fun other => hasMatchB d field main other)
        · rw [show addedInPass d field (main :: rest) k = addedInPass d field rest k by
            simp [addedInPass, hc], hfound, ih hnd.2 k, List.mem_cons]
          constructor
          · rintro ⟨h1, h2⟩; exact ⟨Or.inr h1, h2⟩
          · rintro ⟨h1 | h1, h2⟩
            · exact absurd h1 hne
            · exact ⟨h1, h2⟩
        · rw [show addedInPass d field (main :: rest) k =
              (decide (main = k) || addedInPass d field rest k) by
            simp [addedInPass, hc], hfound, Bool.or_eq_true_iff, ih hnd.2 k, List.mem_cons]
          rw [decide_eq_true_iff]
          constructor
          · rintro (h | ⟨h1, h2⟩)
            · exact absurd h hk
            · exact ⟨Or.inr h1, h2⟩
          · rintro ⟨h1 | h1, h2⟩
            · exact absurd h1 hne
            · exact Or.inr ⟨h1, h2⟩

theorem mem_insertStr (s x : String) (l : List String) :
    x ∈ insertStr s l ↔ x = s ∨ x ∈ l := by
  induction l with
  | nil => simp [insertStr]
  | cons t rest ih =>
      by_cases h : strLt s t
      · rw [show insertStr s (t :: rest) = s :: t :: rest by simp [insertStr, h]]
        simp only [List.mem_cons]
      · rw [show insertStr s (t :: rest) = t :: insertStr s rest by simp [insertStr, h]]
        simp only [List.mem_cons, ih]
        tauto

theorem mem_sortStrings (l : List String) (x : String) :
    x ∈ sortStrings l ↔ x ∈ l := by
  induction l with
  | nil => simp [sortStrings]
  | cons s rest ih => simp [sortStrings, mem_insertStr, ih]

theorem nodup_insertStr (s : String) (l : List String) :
    s ∉ l → l.Nodup → (insertStr s l).Nodup := by
  induction l with
  | nil => intro _ _; simp [insertStr]
  | cons t rest ih =>
      intro hs hnd
      rw [List.nodup_cons] at hnd
      have hst : s ≠ t := fun h => hs (h ▸ List.mem_cons_self _ _)
      have hsrest : s ∉ rest := fun h => hs (List.mem_cons_of_mem _ h)
      by_cases h : strLt s t
      · rw [show insertStr s (t :: rest) = s :: t :: rest by simp [insertStr, h],
          List.nodup_cons]
        refine ⟨?_, by rw [List.nodup_cons]; exact hnd⟩
        intro hmem
        rcases List.mem_cons.1 hmem with h' | h'
        · exact hst h'
        · exact hsrest h'
      · rw [show insertStr s (t :: rest) = t :: insertStr s rest by simp [insertStr, h],
          List.nodup_cons]
        refine ⟨?_, ih hsrest hnd.2⟩
        intro hmem
        rcases (mem_insertStr s t rest).1 hmem with h' | h'
        · exact hst h'.symm
        · exact hnd.1 h'

theorem nodup_sortStrings (l : List String) : l.Nodup → (sortStrings l).Nodup := by
  induction l with
  | nil => intro _; simp [sortStrings]
  | cons s rest ih =>
      intro hnd
      rw [List.nodup_cons] at hnd
      refine nodup_insertStr s (sortStrings rest) ?_ (ih hnd.2)
      rw [mem_sortStrings]
      exact hnd.1

/-- Counterexample to claim C3: in the fuzzy match check over
`sharedFullTable` a match IS found for `"A"` in the ascending pass
(against `"B"`), yet `"A"` is retained in the cleaned output, because
the descending pass - which shares `valid_data` without ever removing
from it - finds no match when `"A"`'s turn comes there; the output
retains BOTH implicated records, with verdict `false`. -/
theorem validator_match_retained_counterexample :
    CheckAcronymAbbrAndFullDict.foundInPass sharedFullTable "names_full"
        (CheckAcronymAbbrAndFullDict.sortStrings (alistKeys sharedFullTable)) "A" = true
    ∧ CheckAcronymAbbrAndFullDict.checkMatches sharedFullTable "names_full" =
      ([("B", ⟨["y"], ["X"]⟩), ("A", ⟨["x"], ["X"]⟩)], false) := by decide

/-- Claim C3 (amended): in `_check_matches` a record is retained in the
cleaned table iff NO match was found for it in at least ONE of the two
scan passes (ascending and descending sorted key order) - a record
matched in only one pass is still retained, since `valid_data` is
shared between the passes and never removed from - and the verdict is
`false` iff some record has a match against a later one in some pass. -/
theorem validator_match_retention :
    ∀ (d : ATable), (alistKeys d).Nodup → ∀ (field k : String),
      (k ∈ alistKeys (CheckAcronymAbbrAndFullDict.checkMatches d field).1 ↔
        k ∈ alistKeys d ∧
          (CheckAcronymAbbrAndFullDict.foundInPass d field
              (CheckAcronymAbbrAndFullDict.sortStrings (alistKeys d)) k = false ∨
           CheckAcronymAbbrAndFullDict.foundInPass d field
              (CheckAcronymAbbrAndFullDict.sortStrings (alistKeys d)).reverse k = false))
      ∧ ((CheckAcronymAbbrAndFullDict.checkMatches d field).2 = false ↔
          (CheckAcronymAbbrAndFullDict.anyFound d field
              (CheckAcronymAbbrAndFullDict.sortStrings (alistKeys d)) = true ∨
           CheckAcronymAbbrAndFullDict.anyFound d field
              (CheckAcronymAbbrAndFullDict.sortStrings (alistKeys d)).reverse = true)) := by
  intro d hnd field k
  have hs : (sortStrings (alistKeys d)).Nodup := nodup_sortStrings _ hnd
  have hr : (sortStrings (alistKeys d)).reverse.Nodup := by
    rw [List.nodup_reverse]; exact hs
  have e : checkMatches d field =
      matchPass d field (sortStrings (alistKeys d)).reverse
        (matchPass d field (sortStrings (alistKeys d)) [] true).1
        (matchPass d field (sortStrings (alistKeys d)) [] true).2 := rfl
  constructor
  · rw [e, matchPass_mem_keys, matchPass_mem_keys,
      addedInPass_iff d field _ hs k, addedInPass_iff d field _ hr k,
      List.mem_reverse, mem_sortStrings]
    simp only [alistKeys, List.map_nil, List.not_mem_nil, false_or]
    tauto
  · rw [e, matchPass_flag, matchPass_flag]
    cases hA : anyFound d field (sortStrings (alistKeys d)) <;>
      cases hB : anyFound d field (sortStrings (alistKeys d)).reverse <;> simp

/-- Witness for the amended C3 at `sharedFullTable`, field
`"names_full"`, key `"A"`: the retention and verdict equivalences of
the theorem hold there. -/
theorem validator_match_retention_witness :
    (alistKeys sharedFullTable).Nodup
    ∧ (("A" ∈ alistKeys (CheckAcronymAbbrAndFullDict.checkMatches
            sharedFullTable "names_full").1 ↔
        "A" ∈ alistKeys sharedFullTable ∧
          (CheckAcronymAbbrAndFullDict.foundInPass sharedFullTable "names_full"
              (CheckAcronymAbbrAndFullDict.sortStrings (alistKeys sharedFullTable))
              "A" = false ∨
           CheckAcronymAbbrAndFullDict.foundInPass sharedFullTable "names_full"
              (CheckAcronymAbbrAndFullDict.sortStrings
                (alistKeys sharedFullTable)).reverse "A" = false))
      ∧ ((CheckAcronymAbbrAndFullDict.checkMatches sharedFullTable "names_full").2 = false ↔
          (CheckAcronymAbbrAndFullDict.anyFound sharedFullTable "names_full"
              (CheckAcronymAbbrAndFullDict.sortStrings (alistKeys sharedFullTable)) = true ∨
           CheckAcronymAbbrAndFullDict.anyFound sharedFullTable "names_full"
              (CheckAcronymAbbrAndFullDict.sortStrings
                (alistKeys sharedFullTable)).reverse = true))) :=
  ⟨by decide, validator_match_retention sharedFullTable (by decide) "names_full" "A"⟩

end ClaimC3

section ClaimC4

open CheckAcronymAbbrAndFullDict

theorem charsLt_irrefl : ∀ (l : List Char), charsLt l l = false := by
  intro l
  induction l with
  | nil => rfl
  | cons a as ih => simp [charsLt, Nat.lt_irrefl, ih]

theorem charsLt_antisymm : ∀ (l1 l2 : List Char),
    charsLt l1 l2 = false → charsLt l2 l1 = false → l1 = l2 := by
  intro l1
  induction l1 with
  | nil =>
      intro l2 h1 _
      cases l2 with
      | nil => rfl
      | cons b bs => simp [charsLt] at h1
  | cons a as ih =>
      intro l2 h1 h2
      cases l2 with
      | nil => simp [charsLt] at h2
      | cons b bs =>
          by_cases hab : a.toNat < b.toNat
          · simp [charsLt, hab] at h1
          · by_cases hba : b.toNat < a.toNat
            · simp [charsLt, hba] at h2
            · have hn : a.toNat = b.toNat := by omega
              have haeq : a = b := Char.eq_of_val_eq (UInt32.ext hn)
              rw [show charsLt (a :: as) (b :: bs) = charsLt as bs by
                simp [charsLt, hab, hba]] at h1
              rw [show charsLt (b :: bs) (a :: as) = charsLt bs as by
                simp [charsLt, hab, hba]] at h2
              rw [haeq, ih bs h1 h2]

theorem charsLt_trans : ∀ (l1 l2 l3 : List Char),
    charsLt l1 l2 = true → charsLt l2 l3 = true → charsLt l1 l3 = true := by
  intro l1
  induction l1 with
  | nil =>
      intro l2 l3 h1 h2
      cases l2 with
      | nil => simp [charsLt] at h1
      | cons b bs =>
          cases l3 with
          | nil => simp [charsLt] at h2
          | cons c cs => simp [charsLt]
  | cons a as ih =>
      intro l2 l3 h1 h2
      cases l2 with
      | nil => simp [charsLt] at h1
      | cons b bs =>
          cases l3 with
          | nil => simp [charsLt] at h2
          | cons c cs =>
              by_cases hab : a.toNat < b.toNat
              · by_cases hbc : b.toNat < c.toNat
                · have hac : a.toNat < c.toNat := Nat.lt_trans hab hbc
                  simp [charsLt, hac]
                · by_cases hcb : c.toNat < b.toNat
                  · simp [charsLt, hbc, hcb] at h2
                  · have hac : a.toNat < c.toNat := by omega
                    simp [charsLt, hac]
              · by_cases hba : b.toNat < a.toNat
                · simp [charsLt, hab, hba] at h1
                · rw [show charsLt (a :: as) (b :: bs) = charsLt as bs by
                    simp [charsLt, hab, hba]] at h1
                  by_cases hbc : b.toNat < c.toNat
                  · have hac : a.toNat < c.toNat := by omega
                    simp [charsLt, hac]
                  · by_cases hcb : c.toNat < b.toNat
                    · simp [charsLt, hbc, hcb] at h2
                    · rw [show charsLt (b :: bs) (c :: cs) = charsLt bs cs by
                        simp [charsLt, hbc, hcb]] at h2
                      have hac : ¬ a.toNat < c.toNat := by omega
                      have hca : ¬ c.toNat < a.toNat := by omega
                      rw [show charsLt (a :: as) (c :: cs) = charsLt as cs by
                        simp [charsLt, hac, hca]]
                      exact ih bs cs h1 h2

theorem strLt_trans {a b c : String} (h1 : strLt a b = true) (h2 : strLt b c = true) :
    strLt a c = true := charsLt_trans a.data b.data c.data h1 h2

theorem strLt_eq_of_not_lt {a b : String} (h1 : strLt a b = false)
    (h2 : strLt b a = false) : a = b := by
  obtain ⟨la⟩ := a
  obtain ⟨lb⟩ := b
  exact congrArg String.mk (charsLt_antisymm la lb h1 h2)

theorem strLt_of_ne_of_not_lt {s t : String} (hne : s ≠ t)
    (h : strLt s t = false) : strLt t s = true := by
  cases h' : strLt t s
  · exact absurd (strLt_eq_of_not_lt h h') hne
  · rfl

theorem pairwise_insertStr (s : String) (l : List String)
    (hp : l.Pairwise (fun a b => strLt a b = true)) (hs : s ∉ l) :
    (insertStr s l).Pairwise (fun a b => strLt a b = true) := by
  induction l with
  | nil => simp [insertStr]
  | cons t rest ih =>
      rw [List.pairwise_cons] at hp
      have hst : s ≠ t := fun h => hs (h ▸ List.mem_cons_self _ _)
      have hsrest : s ∉ rest := fun h => hs (List.mem_cons_of_mem _ h)
      by_cases h : strLt s t
      · rw [show insertStr s (t :: rest) = s :: t :: rest by simp [insertStr, h],
          List.pairwise_cons]
        refine ⟨?_, by rw [List.pairwise_cons]; exact hp⟩
        intro b hb
        rcases List.mem_cons.1 hb with rfl | hb'
        · exact h
        · exact strLt_trans h (hp.1 b hb')
      · have hts : strLt t s = true :=
          strLt_of_ne_of_not_lt hst (by simpa using h)
        rw [show insertStr s (t :: rest) = t :: insertStr s rest by simp [insertStr, h],
          List.pairwise_cons]
        refine ⟨?_, ih hp.2 hsrest⟩
        intro b hb
        rcases (mem_insertStr s b rest).1 hb with rfl | hb'
        · exact hts
        · exact hp.1 b hb'

theorem pairwise_sortStrings (l : List String) (hnd : l.Nodup) :
    (sortStrings l).Pairwise (fun a b => strLt a b = true) := by
  induction l with
  | nil => simp [sortStrings]
  | cons s rest ih =>
      rw [List.nodup_cons] at hnd
      refine pairwise_insertStr s (sortStrings rest) (ih hnd.2) ?_
      rw [mem_sortStrings]
      exact hnd.1

theorem sortStrings_eq_of_pairwise (l : List String)
    (hp : l.Pairwise (fun a b => strLt a b = true)) : sortStrings l = l := by
  induction l with
  | nil => rfl
  | cons s rest ih =>
      rw [List.pairwise_cons] at hp
      rw [show sortStrings (s :: rest) = insertStr s (sortStrings rest) from rfl, ih hp.2]
      cases rest with
      | nil => rfl
      | cons t r =>
          have hst : strLt s t = true := hp.1 t (List.mem_cons_self _ _)
          simp [insertStr, hst]

theorem sortStrings_idem (l : List String) (hnd : l.Nodup) :
    sortStrings (sortStrings l) = sortStrings l :=
  sortStrings_eq_of_pairwise _ (pairwise_sortStrings l hnd)

theorem alistKeys_append {α : Type} (a b : List (String × α)) :
    alistKeys (a ++ b) = alistKeys a ++ alistKeys b := by
  simp [alistKeys]

theorem validateLengthsAux_flag_false (l : ATable) :
    ∀ (acc : ATable), (validateLengthsAux l acc false).2 = false := by
  induction l with
  | nil => intro acc; rfl
  | cons p rest ih =>
      intro acc
      obtain ⟨k, rec⟩ := p
      by_cases h : rec.names_abbr.length ≠ rec.names_full.length <;>
        simp [validateLengthsAux, h, ih]

theorem validateLengthsAux_ok (l : ATable) :
    ∀ (acc : ATable) (b : Bool),
      (validateLengthsAux l acc b).2 = true →
      (∀ k ∈ alistKeys l, k ∉ alistKeys acc) → (alistKeys l).Nodup →
      (validateLengthsAux l acc b).1 = acc ++ l := by
  induction l with
  | nil => intro acc b _ _ _; simp [validateLengthsAux]
  | cons p rest ih =>
      intro acc b hflag hdisj hnd
      obtain ⟨k0, rec0⟩ := p
      by_cases h : rec0.names_abbr.length ≠ rec0.names_full.length
      · rw [show validateLengthsAux ((k0, rec0) :: rest) acc b =
            validateLengthsAux rest acc false by simp [validateLengthsAux, h]] at hflag
        rw [validateLengthsAux_flag_false rest acc] at hflag
        exact absurd hflag (by simp)
      · have hk0 : k0 ∉ alistKeys acc := hdisj k0 (by simp [alistKeys])
        have hpair : k0 ∉ alistKeys rest ∧ (alistKeys rest).Nodup := by
          have h' := hnd
          rw [show alistKeys ((k0, rec0) :: rest) = k0 :: alistKeys rest from rfl,
            List.nodup_cons] at h'
          exact h'
        have hnd' : (alistKeys rest).Nodup := hpair.2
        have hk0rest : k0 ∉ alistKeys rest := hpair.1
        have hdisj' : ∀ k ∈ alistKeys rest, k ∉ alistKeys (acc ++ [(k0, rec0)]) := by
          intro k hk
          rw [alistKeys_append]
          intro hmem
          rcases List.mem_append.1 hmem with hm | hm
          · exact hdisj k (by simp [alistKeys]; right; simpa [alistKeys] using hk) hm
          · simp [alistKeys] at hm
            exact hk0rest (hm ▸ hk)
        rw [show validateLengthsAux ((k0, rec0) :: rest) acc b =
            validateLengthsAux rest (alistInsert acc k0 rec0) b by
          simp [validateLengthsAux, h]] at hflag ⊢
        rw [alistInsert_eq_append acc k0 rec0 hk0] at hflag ⊢
        rw [ih _ b hflag hdisj' hnd']
        simp

theorem checkDupAux_flag_of_true (l : ATable) :
    ∀ (sA sF : List String) (acc : ATable) (b : Bool),
      (checkDuplicatesAux l sA sF acc b).2 = true →
      (∀ k ∈ alistKeys l, k ∉ alistKeys acc) → (alistKeys l).Nodup →
      (checkDuplicatesAux l sA sF acc b).1 = acc ++ l := by
  induction l with
  | nil => intro sA sF acc b _ _ _; simp [checkDuplicatesAux]
  | cons p rest ih =>
      intro sA sF acc b hflag hdisj hnd
      obtain ⟨k0, rec0⟩ := p
      rw [checkDupAux_cons] at hflag ⊢
      by_cases h : (dupStep sA sF rec0).1
      · rw [if_pos h] at hflag
        rw [checkDupAux_flag_false] at hflag
        exact absurd hflag (by simp)
      · rw [if_neg h] at hflag ⊢
        have hk0 : k0 ∉ alistKeys acc := hdisj k0 (by simp [alistKeys])
        have hpair : k0 ∉ alistKeys rest ∧ (alistKeys rest).Nodup := by
          have h' := hnd
          rw [show alistKeys ((k0, rec0) :: rest) = k0 :: alistKeys rest from rfl,
            List.nodup_cons] at h'
          exact h'
        have hnd' : (alistKeys rest).Nodup := hpair.2
        have hk0rest : k0 ∉ alistKeys rest := hpair.1
        have hdisj' : ∀ k ∈ alistKeys rest, k ∉ alistKeys (acc ++ [(k0, rec0)]) := by
          intro k hk
          rw [alistKeys_append]
          intro hmem
          rcases List.mem_append.1 hmem with hm | hm
          · exact hdisj k (by simp [alistKeys]; right; simpa [alistKeys] using hk) hm
          · simp [alistKeys] at hm
            exact hk0rest (hm ▸ hk)
        rw [alistInsert_eq_append acc k0 rec0 hk0] at hflag ⊢
        rw [ih _ _ _ b hflag hdisj' hnd']
        simp

theorem matchPass_all_fresh (d : ATable) (f : String) (l : List String) :
    ∀ (acc : ATable) (b : Bool),
      anyFound d f l = false → (∀ k ∈ l, k ∉ alistKeys acc) → l.Nodup →
      alistKeys (matchPass d f l acc b).1 = alistKeys acc ++ l := by
  induction l with
  | nil => intro acc b _ _ _; simp [matchPass]
  | cons main rest ih =>
      intro acc b hany hdisj hnd
      rw [List.nodup_cons] at hnd
      have hparts : rest.any (fun other => hasMatchB d f main other) = false ∧
          anyFound d f rest = false := by
        simpa [anyFound] using hany
      rw [show matchPass d f (main :: rest) acc b =
          matchPass d f rest (alistInsert acc main (alistGet d main)) b by
        simp [matchPass, hparts.1]]
      have hmain : main ∉ alistKeys acc := hdisj main (List.mem_cons_self _ _)
      have hdisj' : ∀ k ∈ rest, k ∉ alistKeys (alistInsert acc main (alistGet d main)) := by
        intro k hk
        rw [mem_alistKeys_insert]
        rintro (hm | hm)
        · exact hdisj k (List.mem_cons_of_mem _ hk) hm
        · exact hnd.1 (hm ▸ hk)
      rw [ih _ b hparts.2 hdisj' hnd.2,
        alistInsert_eq_append acc main (alistGet d main) hmain, alistKeys_append]
      simp [alistKeys]

theorem matchPass_keys_stable (d : ATable) (f : String) (l : List String) :
    ∀ (acc : ATable) (b : Bool),
      anyFound d f l = false → (∀ k ∈ l, k ∈ alistKeys acc) →
      alistKeys (matchPass d f l acc b).1 = alistKeys acc := by
  induction l with
  | nil => intro acc b _ _; simp [matchPass]
  | cons main rest ih =>
      intro acc b hany hmem
      have hparts : rest.any (fun other => hasMatchB d f main other) = false ∧
          anyFound d f rest = false := by
        simpa [anyFound] using hany
      rw [show matchPass d f (main :: rest) acc b =
          matchPass d f rest (alistInsert acc main (alistGet d main)) b by
        simp [matchPass, hparts.1]]
      have hmain : main ∈ alistKeys acc := hmem main (List.mem_cons_self _ _)
      have hkeys : alistKeys (alistInsert acc main (alistGet d main)) = alistKeys acc :=
        alistKeys_insert_of_mem acc main (alistGet d main) hmain
      rw [ih _ b hparts.2 (by intro k hk; rw [hkeys]; exact hmem k (List.mem_cons_of_mem _ hk)),
        hkeys]

theorem checkMatches_flag_parts (d : ATable) (f : String)
    (h : (checkMatches d f).2 = true) :
    anyFound d f (sortStrings (alistKeys d)) = false ∧
    anyFound d f (sortStrings (alistKeys d)).reverse = false := by
  have e : (checkMatches d f).2 =
      (matchPass d f (sortStrings (alistKeys d)).reverse
        (matchPass d f (sortStrings (alistKeys d)) [] true).1
        (matchPass d f (sortStrings (alistKeys d)) [] true).2).2 := rfl
  rw [e, matchPass_flag, matchPass_flag] at h
  constructor
  · cases hA : anyFound d f (sortStrings (alistKeys d))
    · rfl
    · rw [hA] at h
      simp at h
  · cases hB : anyFound d f (sortStrings (alistKeys d)).reverse
    · rfl
    · rw [hB] at h
      simp at h

theorem checkMatches_keys_of_true (d : ATable) (f : String)
    (hnd : (alistKeys d).Nodup) (h : (checkMatches d f).2 = true) :
    alistKeys (checkMatches d f).1 = sortStrings (alistKeys d) := by
  obtain ⟨hA, hD⟩ := checkMatches_flag_parts d f h
  have e : (checkMatches d f).1 =
      (matchPass d f (sortStrings (alistKeys d)).reverse
        (matchPass d f (sortStrings (alistKeys d)) [] true).1
        (matchPass d f (sortStrings (alistKeys d)) [] true).2).1 := rfl
  have h1 : alistKeys (matchPass d f (sortStrings (alistKeys d)) [] true).1 =
      sortStrings (alistKeys d) := by
    have := matchPass_all_fresh d f (sortStrings (alistKeys d)) [] true hA
      (by intro k _; simp [alistKeys]) (nodup_sortStrings _ hnd)
    simpa [alistKeys] using this
  rw [e, matchPass_keys_stable d f _ _ _ hD
    (by intro k hk; rw [h1]; exact (List.mem_reverse).1 hk), h1]

/-- Counterexample to claim C4: the violation-free table with insertion
order `["B", "A"]` survives validation in full, but the cleaned table
iterates as `["A", "B"]` - sorted key order, not the preserved
insertion order. -/
theorem validator_order_counterexample :
    CheckAcronymAbbrAndFullDict.run unsortedCleanTable =
      ([("A", ⟨["x"], ["X"]⟩), ("B", ⟨["y"], ["Y"]⟩)], true)
    ∧ alistKeys (CheckAcronymAbbrAndFullDict.run unsortedCleanTable).1 ≠
        alistKeys unsortedCleanTable := by decide

/-- Claim C4 (amended): the cleaned table returned by the Validator
does NOT preserve the input's insertion order; whenever validation
finds no violation (verdict `true`), the surviving records - all of
them - are returned in ascending sorted key order, the order produced
by the final fuzzy-match passes. -/
theorem validator_output_sorted :
    ∀ (d : ATable), (alistKeys d).Nodup →
      (CheckAcronymAbbrAndFullDict.run d).2 = true →
      alistKeys (CheckAcronymAbbrAndFullDict.run d).1 =
        CheckAcronymAbbrAndFullDict.sortStrings (alistKeys d) := by
  intro d hnd hflag
  have e2 : (CheckAcronymAbbrAndFullDict.run d).2 =
      ((validateLengths d).2 && (checkDuplicates (validateLengths d).1).2 &&
        (checkMatches (checkDuplicates (validateLengths d).1).1 "names_abbr").2 &&
        (checkMatches (checkMatches (checkDuplicates (validateLengths d).1).1
          "names_abbr").1 "names_full").2) := rfl
  rw [e2] at hflag
  simp only [Bool.and_eq_true, and_assoc] at hflag
  obtain ⟨c1, c2, c3, c4⟩ := hflag
  have h1 : (validateLengths d).1 = d := by
    have := validateLengthsAux_ok d [] true c1 (by intro k _; simp [alistKeys]) hnd
    simpa [validateLengths] using this
  rw [h1] at c2 c3 c4
  have h2 : (checkDuplicates d).1 = d := by
    have := checkDupAux_flag_of_true d [] [] [] true c2
      (by intro k _; simp [alistKeys]) hnd
    simpa [checkDuplicates] using this
  rw [h2] at c3 c4
  have h3 : alistKeys (checkMatches d "names_abbr").1 = sortStrings (alistKeys d) :=
    checkMatches_keys_of_true d "names_abbr" hnd c3
  have hnd3 : (alistKeys (checkMatches d "names_abbr").1).Nodup := by
    rw [h3]; exact nodup_sortStrings _ hnd
  have h4 : alistKeys (checkMatches (checkMatches d "names_abbr").1 "names_full").1 =
      sortStrings (alistKeys (checkMatches d "names_abbr").1) :=
    checkMatches_keys_of_true _ "names_full" hnd3 c4
  have e1 : (CheckAcronymAbbrAndFullDict.run d).1 =
      (checkMatches (checkMatches (checkDuplicates (validateLengths d).1).1
        "names_abbr").1 "names_full").1 := rfl
  rw [e1, h1, h2, h4, h3, sortStrings_idem _ hnd]

/-- Witness for the amended C4 at the violation-free unsorted table:
nodup keys, verdict `true`, and the output key list equals the sorted
key list. -/
theorem validator_output_sorted_witness :
    (alistKeys unsortedCleanTable).Nodup
    ∧ (CheckAcronymAbbrAndFullDict.run unsortedCleanTable).2 = true
    ∧ alistKeys (CheckAcronymAbbrAndFullDict.run unsortedCleanTable).1 =
        CheckAcronymAbbrAndFullDict.sortStrings (alistKeys unsortedCleanTable) :=
  ⟨by decide, by decide, validator_output_sorted unsortedCleanTable (by decide) (by decide)⟩

end ClaimC4
